import Mathlib

/-!
# Verification of the spyfs observation pipeline

Shallow embedding of the core data structures of the `focus` passthrough
filesystem (`src/focus/native/spyfs/`): the `TokenTable` interner, the
`MonikerTable` trie, the `Tablets` per-thread accumulator store, the inode
registry lifecycle, the tracer (`AttributionFrame` / `Context`), and the
log-emission helpers (`TryWrite`, `TryFsync`, `Context::WriteLog`).

Pointer-based structures (the moniker trie with parent back references) are
embedded as an arena: a list of nodes addressed by index, node 0 being the
root.  Machine integers are modelled as `Nat` (none of the verified
operations can overflow 64 bits on the inputs considered).  Fallible code
(exceptions, `LOG(FATAL)` aborts) is modelled with `Except`.
-/

namespace Spyfs

/-! ## TokenTable (`moniker.cpp`, `TokenTable::GetOrInsert` / `ReverseLookup`)

`forward_` is a node hash set of `Token{value, position}` keyed by the string
value; it is embedded as an association list of `(value, position)` pairs in
insertion order.  `reverse_` is the vector of pointers to interned tokens,
embedded as the list of their string values. -/

structure TokenTable where
  idCounter : Nat
  forward : List (String × Nat)
  reverse : List String
deriving Repr, DecidableEq

def TokenTable.new : TokenTable := ⟨0, [], []⟩

/-- `TokenTable::GetOrInsert`: takes `id = id_++`, inserts `Token{token, id}`
into the hash set; on a duplicate the existing position is returned and the
counter is decremented (`--id_`). -/
def TokenTable.GetOrInsert (t : TokenTable) (token : String) :
    (Nat × Bool) × TokenTable :=
  let id := t.idCounter
  let bumped := t.idCounter + 1
  match t.forward.find? (fun p => p.1 == token) with
  | some existing => ((existing.2, false), { t with idCounter := bumped - 1 })
  | none =>
      ((id, true),
        { idCounter := bumped
          forward := t.forward ++ [(token, id)]
          reverse := t.reverse ++ [token] })

/-- `TokenTable::ReverseLookup`: `if (reverse_.size() < id) return nullopt;
return reverse_.at(id)->Value();`.  `std::vector::at` throws
`std::out_of_range` when the index is not below the size; the throw is
modelled as `.error ()`. -/
def TokenTable.ReverseLookup (t : TokenTable) (id : Nat) :
    Except Unit (Option String) :=
  if t.reverse.length < id then .ok none
  else
    match t.reverse[id]? with
    | some v => .ok (some v)
    | none => .error ()

/-- A sequence of `GetOrInsert` calls, returning the `(id, inserted)` pairs in
order together with the final table. -/
def TokenTable.runInserts (t : TokenTable) :
    List String → List (Nat × Bool) × TokenTable
  | [] => ([], t)
  | w :: ws =>
      let r := t.GetOrInsert w
      let rest := r.2.runInserts ws
      (r.1 :: rest.1, rest.2)

/-! Specification-side descriptions of the token table state.  A table whose
reverse vector is `l` has forward set `enumFrom 0 l` and counter `l.length`;
every table reachable from `TokenTable.new` has this shape. -/

def enumFrom (i : Nat) : List String → List (String × Nat)
  | [] => []
  | w :: ws => (w, i) :: enumFrom (i + 1) ws

def tableOf (l : List String) : TokenTable := ⟨l.length, enumFrom 0 l, l⟩

/-- Index of the first occurrence of `w` in a list (length if absent). -/
def idxIn (w : String) : List String → Nat
  | [] => 0
  | x :: xs => if x == w then 0 else idxIn w xs + 1

/-- Extend a first-seen accumulator by a batch of strings. -/
def extendSeen (l : List String) : List String → List String
  | [] => l
  | w :: ws => if w ∈ l then extendSeen l ws else extendSeen (l ++ [w]) ws

/-- The distinct strings of `ws` in first-seen order. -/
def firstSeen (ws : List String) : List String := extendSeen [] ws

/-- The `(id, inserted)` outputs of inserting `ws` into a table whose
first-seen accumulator is `l`. -/
def outputsOf (l : List String) : List String → List (Nat × Bool)
  | [] => []
  | w :: ws =>
      if w ∈ l then (idxIn w l, false) :: outputsOf l ws
      else (l.length, true) :: outputsOf (l ++ [w]) ws

/-! ## MonikerTable (`moniker.cpp`)

The trie of `MonikerNode`s is pointer-based in the source (children own their
nodes via `unique_ptr`, parents are raw back pointers).  It is embedded as an
arena: a list of nodes addressed by list index, index 0 being `root_`.  A
node's `parent` is the index of its parent (none at the root), matching the
`MonikerNode(name, parent)` constructor; `children` is the association list
of `word ↦ child index` entries of the `children_` map. -/

structure MonikerNode where
  name : Nat
  parent : Option Nat
  children : List (Nat × Nat)
deriving Repr, DecidableEq

/-- `MonikerNode::Get(word)`: return the child for `word` if present,
otherwise `try_emplace` a fresh node whose parent is the current node.
The fresh node is appended to the arena; the parent's children map gains the
new entry. -/
def nodeGet (arena : List MonikerNode) (j : Nat) (word : Nat) :
    Nat × List MonikerNode :=
  match arena[j]? with
  | none => (j, arena)
  | some nd =>
      match nd.children.find? (fun c => c.1 == word) with
      | some c => (c.2, arena)
      | none =>
          let idx := arena.length
          let arena1 := arena ++ [⟨word, some j, []⟩]
          (idx, arena1.set j { nd with children := nd.children ++ [(word, idx)] })

/-- The descent loop of `MonikerTable::Insert`: `node = node->Get(token)` for
each token. -/
def descend (arena : List MonikerNode) (j : Nat) :
    List Nat → Nat × List MonikerNode
  | [] => (j, arena)
  | w :: ws =>
      let r := nodeGet arena j w
      descend r.2 r.1 ws

/-- `MonikerNode::Path()`: walk parent links up to the root, collecting the
node names; the root's own (nonsense) name is skipped.  The stack is returned
as a list whose head is the component nearest the root (`stack.top()`).
Fuel bounds the walk; under the arena well-formedness below, parent indices
strictly decrease, so fuel `arena.length` is never exhausted. -/
def pathAux (arena : List MonikerNode) : Nat → Nat → List Nat
  | 0, _ => []
  | fuel + 1, j =>
      match arena[j]? with
      | none => []
      | some nd =>
          match nd.parent with
          | none => []
          | some p => pathAux arena fuel p ++ [nd.name]

structure MonikerTable where
  arena : List MonikerNode
  idToTerminal : List (Nat × Nat)
  tokens : TokenTable
  rootNodeId : Nat
deriving Repr, DecidableEq

/-- The `std::getline(stream, component, '/')` loop of
`MonikerTable::Tokenize`: each call reads the characters up to the next
separator (or end of input) as one component; at end of input with nothing
read the loop stops, so an empty path yields no components and a trailing
separator yields no trailing empty component. -/
def getlineSplit (sep : Char) : List Char → List String
  | [] => []
  | c :: cs =>
      if c = sep then "" :: getlineSplit sep cs
      else
        match getlineSplit sep cs with
        | [] => [String.mk [c]]
        | s :: ss => String.mk (c :: s.data) :: ss

/-- The components `Tokenize` actually interns: the `getline` pieces with
empty components skipped. -/
def pathComponents (path : String) : List String :=
  (getlineSplit '/' path.data).filter (fun c => !(c == ""))

/-- The `GetOrInsert` calls of `MonikerTable::Tokenize`, in component order. -/
def tokenizeComps (t : TokenTable) : List String → List Nat × TokenTable
  | [] => ([], t)
  | c :: cs =>
      let r := t.GetOrInsert c
      let rest := tokenizeComps r.2 cs
      (r.1.1 :: rest.1, rest.2)

/-- `MonikerTable::Insert(id, path)`: tokenize, descend from the root creating
children as needed, then `emplace` (no overwrite) into the terminal index.
Returns the `terminal_inserted` flag. -/
def MonikerTable.Insert (m : MonikerTable) (id : Nat) (path : String) :
    Bool × MonikerTable :=
  let tk := tokenizeComps m.tokens (pathComponents path)
  let ds := descend m.arena 0 tk.1
  match m.idToTerminal.find? (fun p => p.1 == id) with
  | some _ => (false, { m with tokens := tk.2, arena := ds.2 })
  | none =>
      (true,
        { m with
            tokens := tk.2
            arena := ds.2
            idToTerminal := m.idToTerminal ++ [(id, ds.1)] })

/-- `MonikerTable::MonikerTable(root_node_id)`: `root_(0, nullptr)` followed by
`Insert(root_node_id, "<root>")`. -/
def MonikerTable.new (rootNodeId : Nat) : MonikerTable :=
  (MonikerTable.Insert ⟨[⟨0, none, []⟩], [], TokenTable.new, rootNodeId⟩
    rootNodeId "<root>").2

/-- The `ReverseLookup` loop of `MonikerTable::Get`: looks each component ID
up; a missing token makes the whole lookup return none, a thrown
`std::out_of_range` propagates. -/
def collectTokens (t : TokenTable) : List Nat → Except Unit (Option (List String))
  | [] => .ok (some [])
  | i :: is =>
      match t.ReverseLookup i, collectTokens t is with
      | .error e, _ => .error e
      | .ok none, _ => .ok none
      | .ok (some _), .error e => .error e
      | .ok (some _), .ok none => .ok none
      | .ok (some s), .ok (some ss) => .ok (some (s :: ss))

/-- `MonikerTable::Get(id, offset, fully_qualified)`: find the terminal node,
walk `Path()`, reverse-lookup every component and join with the separator
(no leading separator).  `offset` and `fully_qualified` are accepted and
ignored, as in the source. -/
def MonikerTable.Get (m : MonikerTable) (id : Nat) (offset : Nat)
    (fullyQualified : Bool := true) : Except Unit (Option String) :=
  match m.idToTerminal.find? (fun p => p.1 == id) with
  | none => .ok none
  | some p =>
      match collectTokens m.tokens (pathAux m.arena m.arena.length p.2) with
      | .error e => .error e
      | .ok none => .ok none
      | .ok (some ss) => .ok (some (String.intercalate "/" ss))

/-- `MonikerTable::Size()`: the size of the terminal index. -/
def MonikerTable.Size (m : MonikerTable) : Nat := m.idToTerminal.length

/-! Well-formedness of the arena: the root is at index 0 with no parent,
parent indices strictly decrease (nodes are created after their parents),
and every `children_` entry points at a node recording the matching name and
back reference. -/

def nodeOk (arena : List MonikerNode) (j : Nat) : Bool :=
  match arena[j]? with
  | none => true
  | some nd =>
      (match nd.parent with
       | none => true
       | some p => decide (p < j)) &&
      nd.children.all (fun c =>
        match arena[c.2]? with
        | none => false
        | some cnd => (cnd.parent == some j) && (cnd.name == c.1))

def wfArena (arena : List MonikerNode) : Bool :=
  decide (0 < arena.length) &&
  (match arena[0]? with
   | some nd => nd.parent == none
   | none => false) &&
  (List.range arena.length).all (fun j => nodeOk arena j)

def wfTokens (t : TokenTable) : Bool :=
  decide (t.forward = enumFrom 0 t.reverse) && (t.idCounter == t.reverse.length)

def MonikerTable.WF (m : MonikerTable) : Prop :=
  wfArena m.arena = true ∧ wfTokens m.tokens = true

/-! Propositional form of the arena invariant, and its equivalence with the
executable `wfArena`. -/

def nodeOkP (A : List MonikerNode) (j : Nat) : Prop :=
  ∀ nd : MonikerNode, A[j]? = some nd →
    (∀ p : Nat, nd.parent = some p → p < j)
    ∧ ∀ w c : Nat, (w, c) ∈ nd.children →
        ∃ cnd : MonikerNode, A[c]? = some cnd ∧ cnd.parent = some j ∧ cnd.name = w

def wfArenaP (A : List MonikerNode) : Prop :=
  0 < A.length
  ∧ (∀ nd : MonikerNode, A[0]? = some nd → nd.parent = none)
  ∧ ∀ j : Nat, nodeOkP A j

/-- Parent indices strictly decrease along back references. -/
def parentsLt (A : List MonikerNode) : Prop :=
  ∀ (j : Nat) (nd : MonikerNode) (p : Nat),
    A[j]? = some nd → nd.parent = some p → p < j

/-- The root-to-node component spine of the node at index `j`. -/
def sp (A : List MonikerNode) (j : Nat) : List Nat := pathAux A (j + 1) j

/-- Two arenas agreeing on names and parents at every index of the first. -/
def agreesNP (A B : List MonikerNode) : Prop :=
  ∀ (j : Nat) (nd : MonikerNode), A[j]? = some nd →
    ∃ nd' : MonikerNode,
      B[j]? = some nd' ∧ nd'.name = nd.name ∧ nd'.parent = nd.parent

/-- The per-inode loop body of `Context::WriteLog`: resolve each swept inode
via `MonikerTable::Get`; resolved paths become log lines, unresolved inodes
are silently skipped, a thrown exception propagates. -/
def logLines (m : MonikerTable) : List Nat → Except Unit (List String)
  | [] => .ok []
  | ino :: rest =>
      match m.Get ino 1 true, logLines m rest with
      | .error e, _ => .error e
      | .ok none, r => r
      | .ok (some s), .error e => .error e
      | .ok (some s), .ok ss => .ok (s :: ss)

/-! ## Tablets (`tablet.cpp`)

`Tablet` storage is an `absl::flat_hash_set<uint64_t>`, embedded as a
duplicate-free list in insertion order.  `Tablets::Sweep` swaps every live
tablet with a freshly allocated empty one and then merges the swapped
tablets into `into`; `flat_hash_set::merge` moves the elements not already
present in the destination (duplicates stay behind in the source, whose
storage is then deallocated). -/

/-- `Tablet::Insert`: `emplace` into the set, reporting whether the datum was
new. -/
def tabletInsert (data : List Nat) (datum : Nat) : List Nat × Bool :=
  if datum ∈ data then (data, false) else (data ++ [datum], true)

/-- `flat_hash_set::merge` as used by `Tablets::Sweep`: move into `dst` the
elements of `src` it does not already contain. -/
def setMerge (dst src : List Nat) : List Nat :=
  dst ++ src.filter (fun x => decide (¬ x ∈ dst))

/-- `Tablets::Sweep(into)`: after the swap phase every live tablet holds a
fresh empty set; the merge phase folds every swapped-out tablet into `into`.
Returns the final `into` contents and the live tablets' contents. -/
def Sweep (tablets : List (List Nat)) (into : List Nat) :
    List Nat × List (List Nat) :=
  (tablets.foldl (fun acc s => setMerge acc s) into,
   List.replicate tablets.length [])

/-! ## Tracer (`fs.cpp`: `Context`, `AttributionFrame`) -/

/-- The `UseAttribution` enumeration of `fs.cpp` (34 values, the last being
`QuiescenceUseAttribution`). -/
inductive UseAttribution where
  | LookupUseAttribution
  | MkdirUseAttribution
  | MknodUseAttribution
  | SymlinkUseAttribution
  | LinkUseAttribution
  | UnlinkUseAttribution
  | RmdirUseAttribution
  | RenameUseAttribution
  | ForgetUseAttribution
  | ForgetOneUseAttribution
  | ForgetMultiUseAttribution
  | GetattrUseAttribution
  | SetattrUseAttribution
  | ReadlinkUseAttribution
  | OpendirUseAttribution
  | ReaddirUseAttribution
  | ReaddirplusUseAttribution
  | ReleasedirUseAttribution
  | FsyncdirUseAttribution
  | CreateUseAttribution
  | OpenUseAttribution
  | ReleaseUseAttribution
  | FlushUseAttribution
  | FsyncUseAttribution
  | ReadUseAttribution
  | WriteBufUseAttribution
  | StatfsUseAttribution
  | FallocateUseAttribution
  | FlockUseAttribution
  | SetxattrUseAttribution
  | GetxattrUseAttribution
  | ListxattrUseAttribution
  | RemovexattrUseAttribution
  | QuiescenceUseAttribution
deriving Repr, DecidableEq

/-- The numeric value of each enumerator, in declaration order. -/
def UseAttribution.index : UseAttribution → Nat
  | .LookupUseAttribution => 0
  | .MkdirUseAttribution => 1
  | .MknodUseAttribution => 2
  | .SymlinkUseAttribution => 3
  | .LinkUseAttribution => 4
  | .UnlinkUseAttribution => 5
  | .RmdirUseAttribution => 6
  | .RenameUseAttribution => 7
  | .ForgetUseAttribution => 8
  | .ForgetOneUseAttribution => 9
  | .ForgetMultiUseAttribution => 10
  | .GetattrUseAttribution => 11
  | .SetattrUseAttribution => 12
  | .ReadlinkUseAttribution => 13
  | .OpendirUseAttribution => 14
  | .ReaddirUseAttribution => 15
  | .ReaddirplusUseAttribution => 16
  | .ReleasedirUseAttribution => 17
  | .FsyncdirUseAttribution => 18
  | .CreateUseAttribution => 19
  | .OpenUseAttribution => 20
  | .ReleaseUseAttribution => 21
  | .FlushUseAttribution => 22
  | .FsyncUseAttribution => 23
  | .ReadUseAttribution => 24
  | .WriteBufUseAttribution => 25
  | .StatfsUseAttribution => 26
  | .FallocateUseAttribution => 27
  | .FlockUseAttribution => 28
  | .SetxattrUseAttribution => 29
  | .GetxattrUseAttribution => 30
  | .ListxattrUseAttribution => 31
  | .RemovexattrUseAttribution => 32
  | .QuiescenceUseAttribution => 33

/-- `UseAttributionStrings`: the `array<const char*, 33>` of operation names
(one per enumerator except `QuiescenceUseAttribution`). -/
def UseAttributionStrings : List String :=
  ["lookup", "mkdir", "mknod", "symlink", "link",
   "unlink", "rmdir", "rename", "forget", "forget_one",
   "forget_multi", "getattr", "setattr", "readlink", "opendir",
   "readdir", "readdirplus", "releasedir", "fsyncdir", "create",
   "open", "release", "flush", "fsync", "read",
   "write_buf", "statfs", "fallocate", "flock", "setxattr",
   "getxattr", "listxattr", "removexattr"]

/-- The tracer-relevant state of one thread: its tablet's contents, the
`attribution_stack` depth, and the context's `enabled_` flag. -/
structure TraceState where
  tablet : List Nat
  depth : Nat
  enabled : Bool
deriving Repr, DecidableEq

/-- `Context::AddInode`: inserts into the current thread's tablet via
`GetTablets()->GetTabletForThisThread()`.  No `enabled_` check. -/
def addInode (st : TraceState) (ino : Nat) : TraceState :=
  { st with tablet := (tabletInsert st.tablet ino).1 }

/-- `Context::Add` (called from `do_lookup` and `do_readdir`): returns
without inserting when `enabled_` is false; otherwise inserts the inode. -/
def contextAdd (st : TraceState) (ino : Nat) : TraceState :=
  if st.enabled then addInode st ino else st

/-- The `AttributionFrame` constructors: the two-argument form pushes the
frame onto `attribution_stack`; the three-argument (inode) form delegates to
it and then calls `Context::AddInode` unconditionally. -/
def frameCtor (st : TraceState) (tag : UseAttribution) (ino : Option Nat) :
    TraceState :=
  let st1 := { st with depth := st.depth + 1 }
  match ino with
  | none => st1
  | some i => addInode st1 i

/-! ## Registered kernel upcall handlers (`fs.cpp`, `assign_operations` and
the handler bodies), transcribed: whether the body constructs an
`AttributionFrame`, with which tag, and whether the frame receives the
handler's inode argument.  `nestedFrameInode` marks handlers whose inode is
recorded by the nested `forget_one` frame instead. -/

structure HandlerSpec where
  op : String
  framed : Bool
  tag : UseAttribution
  hasInodeArg : Bool
  frameInode : Bool
  nestedFrameInode : Bool
deriving Repr, DecidableEq

def registeredHandlers : List HandlerSpec :=
  [⟨"lookup", true, .LookupUseAttribution, true, true, false⟩,
   ⟨"mkdir", true, .MkdirUseAttribution, true, true, false⟩,
   ⟨"mknod", true, .MknodUseAttribution, true, true, false⟩,
   ⟨"symlink", true, .SymlinkUseAttribution, true, true, false⟩,
   ⟨"link", true, .LinkUseAttribution, true, true, false⟩,
   ⟨"unlink", true, .UnlinkUseAttribution, true, false, false⟩,
   ⟨"rmdir", true, .RmdirUseAttribution, true, true, false⟩,
   ⟨"rename", true, .RenameUseAttribution, true, true, false⟩,
   ⟨"forget", true, .ForgetUseAttribution, true, false, true⟩,
   ⟨"forget_multi", true, .ForgetMultiUseAttribution, true, false, true⟩,
   ⟨"getattr", true, .GetattrUseAttribution, true, true, false⟩,
   ⟨"setattr", true, .SetattrUseAttribution, true, true, false⟩,
   ⟨"readlink", true, .ReadlinkUseAttribution, true, true, false⟩,
   ⟨"opendir", true, .OpendirUseAttribution, true, true, false⟩,
   ⟨"readdir", true, .ReaddirUseAttribution, true, true, false⟩,
   ⟨"readdirplus", true, .ReaddirplusUseAttribution, true, true, false⟩,
   ⟨"releasedir", true, .ReleasedirUseAttribution, true, true, false⟩,
   ⟨"fsyncdir", true, .FsyncdirUseAttribution, true, true, false⟩,
   ⟨"create", true, .CreateUseAttribution, true, true, false⟩,
   ⟨"open", true, .OpenUseAttribution, true, true, false⟩,
   ⟨"release", false, .ReleaseUseAttribution, true, false, false⟩,
   ⟨"flush", true, .FlushUseAttribution, true, true, false⟩,
   ⟨"fsync", true, .FsyncUseAttribution, true, true, false⟩,
   ⟨"read", false, .ReadUseAttribution, true, false, false⟩,
   ⟨"write_buf", false, .WriteBufUseAttribution, true, false, false⟩,
   ⟨"statfs", true, .StatfsUseAttribution, true, true, false⟩,
   ⟨"fallocate", true, .FallocateUseAttribution, true, true, false⟩,
   ⟨"flock", true, .FlockUseAttribution, true, true, false⟩,
   ⟨"setxattr", true, .SetxattrUseAttribution, true, true, false⟩,
   ⟨"getxattr", true, .GetxattrUseAttribution, true, true, false⟩,
   ⟨"listxattr", true, .ListxattrUseAttribution, true, true, false⟩,
   ⟨"removexattr", true, .RemovexattrUseAttribution, true, true, false⟩]

/-! ## InodeRegistry (`fs.cpp`: `fs.inodes`, `do_lookup`, `forget_one`,
`Inode::~Inode`) -/

structure InodeRec where
  fd : Int
  nlookup : Nat
deriving Repr, DecidableEq

/-- The registry `fs.inodes : node_hash_map<SrcId, Inode>`, embedded as an
association list keyed by `(src_ino, src_dev)`. -/
def Registry : Type := List ((Nat × Nat) × InodeRec)

def lookupRec (st : List ((Nat × Nat) × InodeRec)) (id : Nat × Nat) :
    Option InodeRec :=
  (st.find? (fun p => p.1 == id)).map (fun p => p.2)

/-- The registry step of `do_lookup`: on a hit, `nlookup++` and the scratch
descriptor `newFd` is closed; on a miss, a record owning `newFd` is
installed with `nlookup = 1`.  Returns the new registry and the descriptors
closed by this call. -/
def registryLookup (st : List ((Nat × Nat) × InodeRec)) (id : Nat × Nat)
    (newFd : Int) : List ((Nat × Nat) × InodeRec) × List Int :=
  match st.find? (fun p => p.1 == id) with
  | some _ =>
      (st.map (fun q =>
        if q.1 == id then (q.1, { q.2 with nlookup := q.2.nlookup + 1 })
        else q), [newFd])
  | none => (st ++ [(id, ⟨newFd, 1⟩)], [])

/-- `forget_one(ino, n)`: a stale handle is fatal (`get_inode` LOG(FATAL));
`n > nlookup` is fatal ("Negative lookup count"); otherwise `nlookup -= n`,
and at zero the record is erased — its destructor closes the descriptor
(when `fd > 0`).  Returns the new registry and the descriptors closed. -/
def forgetOne (st : List ((Nat × Nat) × InodeRec)) (id : Nat × Nat)
    (n : Nat) : Except String (List ((Nat × Nat) × InodeRec) × List Int) :=
  match st.find? (fun p => p.1 == id) with
  | none => .error "unknown inode"
  | some p =>
      if p.2.nlookup < n then .error "negative lookup count"
      else if p.2.nlookup = n then
        .ok (st.filter (fun q => !(q.1 == id)),
          if p.2.fd > 0 then [p.2.fd] else [])
      else
        .ok (st.map (fun q =>
          if q.1 == id then (q.1, { q.2 with nlookup := q.2.nlookup - n })
          else q), [])

/-- Registry invariant: keys are unique, and every stored record has a
positive lookup count and an open (positive) descriptor. -/
def registryInv (st : List ((Nat × Nat) × InodeRec)) : Prop :=
  (st.map (fun p => p.1)).Nodup
  ∧ ∀ p ∈ st, 0 < p.2.nlookup ∧ 0 < p.2.fd

/-! ## Log emission (`fs.cpp`: `TryWrite`, `TryFsync`, `Context::WriteLog`) -/

inductive Errno where
  | EINTR
  | EAGAIN
  | EWOULDBLOCK
  | Eio
  | ENOSPC
  | other (n : Nat)
deriving Repr, DecidableEq

/-- The retry condition of `TryWrite`'s inner do-while loop. -/
def Errno.transient : Errno → Bool
  | .EINTR => true
  | .EAGAIN => true
  | .EWOULDBLOCK => true
  | _ => false

/-- `TryWrite(fd, buf, buf_len)` against an oracle listing the outcome of
each successive `write(2)` call: while bytes remain, call `write`, retrying
the same position while the result is a transient error; any other error is
returned to the caller, and a short write advances the loop.  `none` models
an exhausted oracle (the loop still running). -/
def TryWrite : List (Except Errno Nat) → Nat → Option (Except Errno Unit)
  | _, 0 => some (.ok ())
  | [], _ + 1 => none
  | r :: rs, n + 1 =>
      match r with
      | .error e => if e.transient then TryWrite rs (n + 1) else some (.error e)
      | .ok k => TryWrite rs (n + 1 - k)

/-- `TryFsync(fd, tries)` against an oracle giving each successive
`fsync(2)` outcome: up to `tries` attempts, returning whether one
succeeded.  On exhaustion the failure is logged at error severity and
`false` is returned. -/
def TryFsync (oracle : Nat → Bool) : Nat → Nat → Bool
  | _, 0 => false
  | start, t + 1 => if oracle start then true else TryFsync oracle (start + 1) t

structure EmitOutcome where
  aborted : Bool
  fsyncOk : Bool
deriving Repr, DecidableEq

/-- The tail of `Context::WriteLog`: the final buffer flush is `PCHECK`ed
(a failed write aborts the process); then `TryFsync(fd, 5)` runs and its
result is discarded. -/
def writeLogTail (writeOracle : List (Except Errno Nat)) (bufLen : Nat)
    (fsyncOracle : Nat → Bool) : EmitOutcome :=
  match TryWrite writeOracle bufLen with
  | some (.ok ()) => { aborted := false, fsyncOk := TryFsync fsyncOracle 0 5 }
  | some (.error _) => { aborted := true, fsyncOk := false }
  | none => { aborted := false, fsyncOk := false }

/-! ## Write buffering (`fs.cpp`, `Context::WriteLog` loop body)

The loop keeps a reusable `std::string` buffer reserved to
`kLogWriterBufferSize`; for each resolved path of byte length `size` it
checks `buf.capacity() < size` and only then flushes and clears, then
appends the path and a newline.  The model tracks the buffer length, its
capacity (grown minimally when exceeded, as `std::string` guarantees
`capacity() ≥ size()`), the number of in-loop flushes, and the high-water
mark of the buffer length. -/

def kLogWriterBufferSize : Nat := 4 * 1024 * 1024

structure BufState where
  len : Nat
  cap : Nat
  flushes : Nat
  maxLen : Nat
deriving Repr, DecidableEq

def bufStep (st : BufState) (size : Nat) : BufState :=
  if st.cap < size then
    { len := size + 1
      cap := max st.cap (size + 1)
      flushes := st.flushes + 1
      maxLen := max st.maxLen (size + 1) }
  else
    { len := st.len + size + 1
      cap := max st.cap (st.len + size + 1)
      flushes := st.flushes
      maxLen := max st.maxLen (st.len + size + 1) }

def bufRun (sizes : List Nat) : BufState :=
  sizes.foldl bufStep
    { len := 0, cap := kLogWriterBufferSize, flushes := 0, maxLen := 0 }

theorem idxIn_lt_length {w : String} {l : List String} (h : w ∈ l) :
    idxIn w l < l.length := by
  induction l with
  | nil => cases h
  | cons x xs ih =>
      simp only [idxIn]
      by_cases hx : x == w
      · simp [hx]
      · simp only [hx, if_neg]
        have hw : w ∈ xs := by
          rcases List.mem_cons.mp h with h1 | h1
          · exact absurd (beq_iff_eq.mpr h1.symm) (by simpa using hx)
          · exact h1
        simpa [Nat.succ_lt_succ_iff] using ih hw

theorem getElem?_idxIn {w : String} {l : List String} (h : w ∈ l) :
    l[idxIn w l]? = some w := by
  induction l with
  | nil => cases h
  | cons x xs ih =>
      simp only [idxIn]
      by_cases hx : x == w
      · simp [hx, (beq_iff_eq.mp hx)]
      · simp only [hx, if_neg]
        have hw : w ∈ xs := by
          rcases List.mem_cons.mp h with h1 | h1
          · exact absurd (beq_iff_eq.mpr h1.symm) (by simpa using hx)
          · exact h1
        simpa using ih hw

theorem find?_enumFrom_of_mem {w : String} {l : List String} (h : w ∈ l)
    (i : Nat) :
    (enumFrom i l).find? (fun p => p.1 == w) = some (w, i + idxIn w l) := by
  induction l generalizing i with
  | nil => cases h
  | cons x xs ih =>
      simp only [enumFrom, idxIn, List.find?]
      by_cases hx : x == w
      · simp [hx, beq_iff_eq.mp hx]
      · have hw : w ∈ xs := by
          rcases List.mem_cons.mp h with h1 | h1
          · exact absurd (beq_iff_eq.mpr h1.symm) (by simpa using hx)
          · exact h1
        simp only [hx, if_neg]
        rw [ih hw (i + 1)]
        have harith : i + 1 + idxIn w xs = i + (idxIn w xs + 1) := by omega
        rw [harith]
        simp

theorem find?_enumFrom_of_not_mem {w : String} {l : List String} (h : ¬ w ∈ l)
    (i : Nat) : (enumFrom i l).find? (fun p => p.1 == w) = none := by
  induction l generalizing i with
  | nil => rfl
  | cons x xs ih =>
      simp only [enumFrom, List.find?]
      have hx : (x == w) = false := by
        simp only [beq_eq_false_iff_ne, ne_eq]
        intro hxw; exact h (hxw ▸ List.mem_cons_self x xs)
      simp only [hx]
      exact ih (fun hw => h (List.mem_cons_of_mem x hw)) (i + 1)

theorem enumFrom_append (l : List String) (w : String) (i : Nat) :
    enumFrom i (l ++ [w]) = enumFrom i l ++ [(w, i + l.length)] := by
  induction l generalizing i with
  | nil => simp [enumFrom]
  | cons x xs ih =>
      simp only [List.cons_append, enumFrom, List.append_eq, ih (i + 1),
        List.length_cons]
      have harith : i + 1 + xs.length = i + (xs.length + 1) := by omega
      rw [harith]

theorem getOrInsert_of_mem {w : String} {l : List String} (h : w ∈ l) :
    (tableOf l).GetOrInsert w = ((idxIn w l, false), tableOf l) := by
  simp [TokenTable.GetOrInsert, tableOf, find?_enumFrom_of_mem h 0]

theorem getOrInsert_of_not_mem {w : String} {l : List String} (h : ¬ w ∈ l) :
    (tableOf l).GetOrInsert w = ((l.length, true), tableOf (l ++ [w])) := by
  simp [TokenTable.GetOrInsert, tableOf, find?_enumFrom_of_not_mem h 0,
    enumFrom_append]

theorem runInserts_tableOf (ws : List String) (l : List String) :
    (tableOf l).runInserts ws = (outputsOf l ws, tableOf (extendSeen l ws)) := by
  induction ws generalizing l with
  | nil => rfl
  | cons w ws ih =>
      by_cases h : w ∈ l
      · simp [TokenTable.runInserts, getOrInsert_of_mem h, outputsOf,
          extendSeen, h, ih]
      · simp [TokenTable.runInserts, getOrInsert_of_not_mem h, outputsOf,
          extendSeen, h, ih]

theorem extendSeen_cons_mem {w : String} {l : List String} (h : w ∈ l)
    (ws : List String) : extendSeen l (w :: ws) = extendSeen l ws := by
  simp [extendSeen, h]

theorem extendSeen_cons_not_mem {w : String} {l : List String} (h : ¬ w ∈ l)
    (ws : List String) : extendSeen l (w :: ws) = extendSeen (l ++ [w]) ws := by
  simp [extendSeen, h]

theorem outputsOf_cons_mem {w : String} {l : List String} (h : w ∈ l)
    (ws : List String) :
    outputsOf l (w :: ws) = (idxIn w l, false) :: outputsOf l ws := by
  simp [outputsOf, h]

theorem outputsOf_cons_not_mem {w : String} {l : List String} (h : ¬ w ∈ l)
    (ws : List String) :
    outputsOf l (w :: ws) = (l.length, true) :: outputsOf (l ++ [w]) ws := by
  simp [outputsOf, h]

theorem extendSeen_suffix (ws l : List String) :
    ∃ t, extendSeen l ws = l ++ t := by
  induction ws generalizing l with
  | nil => exact ⟨[], by simp [extendSeen]⟩
  | cons w ws ih =>
      by_cases h : w ∈ l
      · simpa [extendSeen_cons_mem h] using ih l
      · obtain ⟨t, ht⟩ := ih (l ++ [w])
        exact ⟨w :: t, by simp [extendSeen_cons_not_mem h, ht]⟩

theorem mem_extendSeen {x : String} (ws l : List String) :
    x ∈ extendSeen l ws ↔ x ∈ l ∨ x ∈ ws := by
  induction ws generalizing l with
  | nil => simp [extendSeen]
  | cons w ws ih =>
      by_cases h : w ∈ l
      · by_cases hx : x = w
        · subst hx; simp [extendSeen_cons_mem h, ih, h]
        · simp [extendSeen_cons_mem h, ih, hx]
      · rw [extendSeen_cons_not_mem h, ih]
        simp only [List.mem_append, List.mem_singleton, List.mem_cons]
        tauto

theorem extendSeen_nodup (ws : List String) {l : List String}
    (hl : l.Nodup) : (extendSeen l ws).Nodup := by
  induction ws generalizing l with
  | nil => exact hl
  | cons w ws ih =>
      by_cases h : w ∈ l
      · simpa [extendSeen_cons_mem h] using ih hl
      · rw [extendSeen_cons_not_mem h]
        exact ih (by simp [List.nodup_append, hl, h])

theorem idxIn_append_of_mem {w : String} {l : List String} (h : w ∈ l)
    (t : List String) : idxIn w (l ++ t) = idxIn w l := by
  induction l with
  | nil => cases h
  | cons x xs ih =>
      simp only [List.cons_append, idxIn]
      by_cases hx : x == w
      · simp [hx]
      · have hw : w ∈ xs := by
          rcases List.mem_cons.mp h with h1 | h1
          · exact absurd (beq_iff_eq.mpr h1.symm) (by simpa using hx)
          · exact h1
        simp [hx, ih hw]

theorem idxIn_append_self {w : String} {l : List String} (h : ¬ w ∈ l)
    (t : List String) : idxIn w (l ++ w :: t) = l.length := by
  induction l with
  | nil => simp [idxIn]
  | cons x xs ih =>
      have hx : (x == w) = false := by
        simp only [beq_eq_false_iff_ne, ne_eq]
        intro hxw; exact h (hxw ▸ List.mem_cons_self x xs)
      simp [idxIn, hx, ih (fun hw => h (List.mem_cons_of_mem x hw))]

theorem outputsOf_fst (ws l : List String) :
    (outputsOf l ws).map Prod.fst
      = ws.map (fun w => idxIn w (extendSeen l ws)) := by
  induction ws generalizing l with
  | nil => rfl
  | cons w ws ih =>
      by_cases h : w ∈ l
      · obtain ⟨t, ht⟩ := extendSeen_suffix ws l
        rw [outputsOf_cons_mem h, extendSeen_cons_mem h, List.map_cons,
          List.map_cons, ih, ht, idxIn_append_of_mem h]
      · obtain ⟨t, ht⟩ := extendSeen_suffix ws (l ++ [w])
        have hE : extendSeen l (w :: ws) = l ++ w :: t := by
          rw [extendSeen_cons_not_mem h, ht, List.append_assoc]
          rfl
        rw [outputsOf_cons_not_mem h, hE, List.map_cons, List.map_cons, ih, ht,
          idxIn_append_self h]
        have ht' : l ++ [w] ++ t = l ++ w :: t := by
          rw [List.append_assoc]; rfl
        rw [ht']

theorem outputsOf_snd (ws l : List String) (i : Nat) :
    ((outputsOf l ws)[i]?).map Prod.snd
      = (ws[i]?).map (fun w => decide (¬ w ∈ l ∧ ¬ w ∈ ws.take i)) := by
  induction ws generalizing l i with
  | nil => simp [outputsOf]
  | cons w ws ih =>
      by_cases h : w ∈ l
      · cases i with
        | zero => simp [outputsOf_cons_mem h, h]
        | succ i =>
            rw [outputsOf_cons_mem h, List.getElem?_cons_succ,
              List.getElem?_cons_succ, List.take_succ_cons, ih l i]
            rcases hv : ws[i]? with _ | v
            · rfl
            · rw [Option.map_some', Option.map_some']
              refine congrArg some (decide_eq_decide.mpr ?_)
              constructor
              · rintro ⟨h1, h2⟩
                refine ⟨h1, fun hc => ?_⟩
                rcases List.mem_cons.mp hc with rfl | hc
                · exact h1 h
                · exact h2 hc
              · rintro ⟨h1, h2⟩
                exact ⟨h1, fun hc => h2 (List.mem_cons_of_mem w hc)⟩
      · cases i with
        | zero => simp [outputsOf_cons_not_mem h, h]
        | succ i =>
            rw [outputsOf_cons_not_mem h, List.getElem?_cons_succ,
              List.getElem?_cons_succ, List.take_succ_cons, ih (l ++ [w]) i]
            rcases hv : ws[i]? with _ | v
            · rfl
            · rw [Option.map_some', Option.map_some']
              refine congrArg some (decide_eq_decide.mpr ?_)
              constructor
              · rintro ⟨h1, h2⟩
                have h1' : ¬ v ∈ l := fun hc => h1 (List.mem_append_left _ hc)
                refine ⟨h1', fun hc => ?_⟩
                rcases List.mem_cons.mp hc with rfl | hc
                · exact h1 (List.mem_append_right _ (List.mem_singleton.mpr rfl))
                · exact h2 hc
              · rintro ⟨h1, h2⟩
                refine ⟨fun hc => ?_, fun hc => h2 (List.mem_cons_of_mem w hc)⟩
                rcases List.mem_append.mp hc with hc | hc
                · exact h1 hc
                · exact h2 (by
                    rw [List.mem_singleton.mp hc]
                    exact List.mem_cons_self w (ws.take i))

theorem idxIn_of_getElem? {L : List String} (hnd : L.Nodup) :
    ∀ k x, L[k]? = some x → idxIn x L = k := by
  induction L with
  | nil => intro k x hk; simp at hk
  | cons y ys ih =>
      intro k x hk
      cases k with
      | zero =>
          simp only [List.getElem?_cons_zero, Option.some_inj] at hk
          subst hk; simp [idxIn]
      | succ k =>
          simp only [List.getElem?_cons_succ] at hk
          have hmem : x ∈ ys := List.getElem?_mem hk
          have hxy : (y == x) = false := by
            simp only [beq_eq_false_iff_ne, ne_eq]
            rintro rfl
            exact (List.nodup_cons.mp hnd).1 hmem
          simp [idxIn, hxy, ih (List.nodup_cons.mp hnd).2 k x hk]

theorem firstSeen_nodup (ws : List String) : (firstSeen ws).Nodup :=
  extendSeen_nodup ws List.nodup_nil

theorem mem_firstSeen {x : String} (ws : List String) :
    x ∈ firstSeen ws ↔ x ∈ ws := by
  simp [firstSeen, mem_extendSeen]

theorem new_eq_tableOf : TokenTable.new = tableOf [] := rfl

/-- C9: any sequence of `GetOrInsert` calls with `n` distinct strings returns
exactly the IDs `{0, …, n−1}`, each string's ID being its index in first-seen
order (so duplicates return the existing ID and consume no counter value);
the `inserted` flag is true exactly on a string's first occurrence; and the
"foo, foo, bar, bar, baz" scenario yields IDs 0, 0, 1, 1, 2 with flags
true, false, true, false, true. -/
theorem tokenTable_dense_ids (ws : List String) :
    (((TokenTable.new.runInserts ws).1.map Prod.fst).toFinset
        = Finset.range (firstSeen ws).length)
    ∧ ((TokenTable.new.runInserts ws).1.map Prod.fst
        = ws.map (fun w => idxIn w (firstSeen ws)))
    ∧ (∀ i, ((TokenTable.new.runInserts ws).1[i]?).map Prod.snd
        = (ws[i]?).map (fun w => decide (¬ w ∈ ws.take i)))
    ∧ ((TokenTable.new.runInserts ws).2.idCounter = (firstSeen ws).length)
    ∧ ((TokenTable.new.runInserts ["foo", "foo", "bar", "bar", "baz"]).1
        = [(0, true), (0, false), (1, true), (1, false), (2, true)]) := by
  have hrun := runInserts_tableOf ws []
  rw [new_eq_tableOf, hrun]
  have hfst : (outputsOf [] ws).map Prod.fst
      = ws.map (fun w => idxIn w (firstSeen ws)) := outputsOf_fst ws []
  refine ⟨?_, hfst, ?_, rfl, by decide⟩
  · ext k
    simp only [List.mem_toFinset, Finset.mem_range, hfst, List.mem_map]
    constructor
    · rintro ⟨w, hw, rfl⟩
      exact idxIn_lt_length ((mem_firstSeen ws).mpr hw)
    · intro hk
      have hget : (firstSeen ws)[k]? = some ((firstSeen ws)[k]) :=
        List.getElem?_eq_getElem hk
      refine ⟨(firstSeen ws)[k], ?_, ?_⟩
      · exact (mem_firstSeen ws).mp (List.getElem?_mem hget)
      · exact idxIn_of_getElem? (firstSeen_nodup ws) k _ hget
  · intro i
    rw [outputsOf_snd ws [] i]
    rcases hv : ws[i]? with _ | v
    · simp
    · simp

/-- C6 (code bug witness): after interning one string, `ReverseLookup` at the
boundary index `n = 1` evaluates `reverse_.at(1)` on a one-element vector and
throws `std::out_of_range` (modelled `.error ()`) instead of returning none;
indices strictly above the size do return none, and issued IDs resolve. -/
theorem reverseLookup_boundary_throws :
    ((TokenTable.new.runInserts ["foo"]).2.ReverseLookup 1 = .error ())
    ∧ ((TokenTable.new.runInserts ["foo"]).2.ReverseLookup 0
        = .ok (some "foo"))
    ∧ ((TokenTable.new.runInserts ["foo"]).2.ReverseLookup 2 = .ok none) := by
  refine ⟨rfl, rfl, rfl⟩

theorem nodeOk_iff (A : List MonikerNode) (j : Nat) :
    nodeOk A j = true ↔ nodeOkP A j := by
  unfold nodeOk nodeOkP
  cases hj : A[j]? with
  | none => simp [hj]
  | some nd =>
      rw [Bool.and_eq_true]
      constructor
      · rintro ⟨hpar, hch⟩ nd' hnd'
        rw [Option.some_inj] at hnd'
        subst hnd'
        constructor
        · intro p hp
          rw [hp] at hpar
          exact of_decide_eq_true hpar
        · intro w c hwc
          have := List.all_eq_true.mp hch (w, c) hwc
          cases hcc : A[c]? with
          | none => rw [hcc] at this; cases this
          | some cnd =>
              rw [hcc] at this
              rw [Bool.and_eq_true] at this
              exact ⟨cnd, rfl, eq_of_beq this.1, eq_of_beq this.2⟩
      · intro h
        obtain ⟨hpar, hch⟩ := h nd rfl
        constructor
        · cases hp : nd.parent with
          | none => rfl
          | some p => exact decide_eq_true (hpar p hp)
        · refine List.all_eq_true.mpr ?_
          rintro ⟨w, c⟩ hwc
          obtain ⟨cnd, hcc, hcp, hcn⟩ := hch w c hwc
          rw [hcc, Bool.and_eq_true]
          exact ⟨beq_iff_eq.mpr hcp, beq_iff_eq.mpr hcn⟩

theorem wfArena_iff (A : List MonikerNode) :
    wfArena A = true ↔ wfArenaP A := by
  unfold wfArena wfArenaP
  rw [Bool.and_eq_true, Bool.and_eq_true]
  constructor
  · rintro ⟨⟨h1, h2⟩, h3⟩
    refine ⟨of_decide_eq_true h1, ?_, ?_⟩
    · intro nd hnd
      rw [hnd] at h2
      exact eq_of_beq h2
    · intro j
      by_cases hj : j < A.length
      · exact (nodeOk_iff A j).mp
          (List.all_eq_true.mp h3 j (List.mem_range.mpr hj))
      · intro nd hnd
        rw [List.getElem?_eq_none (by omega)] at hnd
        cases hnd
  · rintro ⟨h1, h2, h3⟩
    refine ⟨⟨decide_eq_true h1, ?_⟩, ?_⟩
    · cases h0 : A[0]? with
      | none =>
          rw [List.getElem?_eq_none_iff] at h0
          omega
      | some nd => exact beq_iff_eq.mpr (h2 nd h0)
    · refine List.all_eq_true.mpr fun j _ => (nodeOk_iff A j).mpr (h3 j)

theorem wfArenaP.parentsLt {A : List MonikerNode} (h : wfArenaP A) :
    Spyfs.parentsLt A :=
  fun j nd p hj hp => ((h.2.2 j) nd hj).1 p hp

theorem pathAux_zero (A : List MonikerNode) (j : Nat) : pathAux A 0 j = [] :=
  rfl

theorem pathAux_oob {A : List MonikerNode} {j : Nat} (h : A[j]? = none)
    (fuel : Nat) : pathAux A (fuel + 1) j = [] := by
  unfold pathAux; rw [h]

theorem pathAux_root {A : List MonikerNode} {j : Nat} {nd : MonikerNode}
    (h : A[j]? = some nd) (hp : nd.parent = none) (fuel : Nat) :
    pathAux A (fuel + 1) j = [] := by
  obtain ⟨nm, par, ch⟩ := nd
  have hp' : par = none := hp
  subst hp'
  unfold pathAux
  rw [h]

theorem pathAux_step {A : List MonikerNode} {j : Nat} {nd : MonikerNode}
    {p : Nat} (h : A[j]? = some nd) (hp : nd.parent = some p) (fuel : Nat) :
    pathAux A (fuel + 1) j = pathAux A fuel p ++ [nd.name] := by
  obtain ⟨nm, par, ch⟩ := nd
  have hp' : par = some p := hp
  subst hp'
  conv_lhs => unfold pathAux
  rw [h]

/-- `pathAux` is independent of the fuel once the fuel exceeds the start
index: parent indices strictly decrease, so the walk takes at most `j` steps. -/
theorem pathAux_fuel {A : List MonikerNode} (hA : parentsLt A) :
    ∀ j f1 f2, j < f1 → j < f2 → pathAux A f1 j = pathAux A f2 j := by
  intro j
  induction j using Nat.strong_induction_on with
  | _ j ih =>
      intro f1 f2 h1 h2
      obtain ⟨a, rfl⟩ : ∃ a, f1 = a + 1 := ⟨f1 - 1, by omega⟩
      obtain ⟨b, rfl⟩ : ∃ b, f2 = b + 1 := ⟨f2 - 1, by omega⟩
      cases hj : A[j]? with
      | none => rw [pathAux_oob hj, pathAux_oob hj]
      | some nd =>
          cases hp : nd.parent with
          | none => rw [pathAux_root hj hp, pathAux_root hj hp]
          | some p =>
              have hpj := hA j nd p hj hp
              rw [pathAux_step hj hp, pathAux_step hj hp,
                ih p hpj a b (by omega) (by omega)]

theorem agreesNP_refl (A : List MonikerNode) : agreesNP A A :=
  fun _ nd h => ⟨nd, h, rfl, rfl⟩

theorem agreesNP_trans {A B C : List MonikerNode} (h1 : agreesNP A B)
    (h2 : agreesNP B C) : agreesNP A C := by
  intro j nd hj
  obtain ⟨nd', hB, hn, hp⟩ := h1 j nd hj
  obtain ⟨nd'', hC, hn', hp'⟩ := h2 j nd' hB
  exact ⟨nd'', hC, hn'.trans hn, hp'.trans hp⟩

theorem pathAux_agrees {A B : List MonikerNode} (hA : parentsLt A)
    (hAB : agreesNP A B) :
    ∀ fuel j, j < A.length → pathAux B fuel j = pathAux A fuel j := by
  intro fuel
  induction fuel with
  | zero => intro j _; rfl
  | succ fuel ih =>
      intro j hj
      cases hj' : A[j]? with
      | none =>
          rw [List.getElem?_eq_none_iff] at hj'
          omega
      | some nd =>
          obtain ⟨nd', hB, hname, hparent⟩ := hAB j nd hj'
          cases hp : nd.parent with
          | none =>
              rw [pathAux_root hj' hp, pathAux_root hB (hparent.trans hp)]
          | some p =>
              rw [pathAux_step hj' hp, pathAux_step hB (hparent.trans hp),
                hname, ih p (lt_trans (hA j nd p hj' hp) hj)]

/-- The fresh-child case of `MonikerNode::Get`: appending a node and linking
it under `j` preserves the invariant, agrees with the old arena on names and
parents, and gives the new node the spine of `j` extended by `w`. -/
theorem extendArena_facts {A : List MonikerNode} {j : Nat} (w : Nat)
    {nd : MonikerNode} (hwf : wfArenaP A) (hnd : A[j]? = some nd) :
    wfArenaP ((A ++ [(⟨w, some j, []⟩ : MonikerNode)]).set j
        { nd with children := nd.children ++ [(w, A.length)] })
    ∧ agreesNP A ((A ++ [(⟨w, some j, []⟩ : MonikerNode)]).set j
        { nd with children := nd.children ++ [(w, A.length)] })
    ∧ sp ((A ++ [(⟨w, some j, []⟩ : MonikerNode)]).set j
        { nd with children := nd.children ++ [(w, A.length)] }) A.length
      = sp A j ++ [w] := by
  have hj : j < A.length := by
    rcases List.getElem?_eq_some.mp hnd with ⟨h', _⟩; exact h'
  set nd' : MonikerNode := { nd with children := nd.children ++ [(w, A.length)] }
    with hnd'def
  set B := (A ++ [(⟨w, some j, []⟩ : MonikerNode)]).set j nd' with hBdef
  have hBlen : B.length = A.length + 1 := by simp [hBdef]
  have hBj : B[j]? = some nd' := by
    rw [hBdef]
    exact List.getElem?_set_self (by simp; omega)
  have hBnew : B[A.length]? = some (⟨w, some j, []⟩ : MonikerNode) := by
    rw [hBdef, List.getElem?_set_ne (by omega), List.getElem?_concat_length]
  have hBk : ∀ k, k ≠ j → k < A.length → B[k]? = A[k]? := by
    intro k hkj hk
    rw [hBdef, List.getElem?_set_ne (fun hh => hkj hh.symm),
      List.getElem?_append_left hk]
  have hagree : agreesNP A B := by
    intro k ndk hk
    have hkl : k < A.length := by
      rcases List.getElem?_eq_some.mp hk with ⟨h', _⟩; exact h'
    by_cases hkj : k = j
    · subst hkj
      rw [hnd, Option.some_inj] at hk
      subst hk
      exact ⟨nd', hBj, rfl, rfl⟩
    · exact ⟨ndk, by rw [hBk k hkj hkl]; exact hk, rfl, rfl⟩
  have hwfB : wfArenaP B := by
    refine ⟨by omega, ?_, ?_⟩
    · intro nd0 h0
      by_cases hj0 : j = 0
      · subst hj0
        rw [hBj, Option.some_inj] at h0
        subst h0
        exact hwf.2.1 nd hnd
      · rw [hBk 0 (fun hh => hj0 hh.symm) hwf.1] at h0
        exact hwf.2.1 nd0 h0
    · intro k ndk hk
      by_cases hkj : k = j
      · subst hkj
        rw [hBj, Option.some_inj] at hk
        subst hk
        constructor
        · intro p hp
          exact (hwf.2.2 k nd hnd).1 p hp
        · intro w' c' hwc
          have hwc' : (w', c') ∈ nd.children ++ [(w, A.length)] := hwc
          simp only [List.mem_append, List.mem_singleton] at hwc'
          rcases hwc' with hwc' | hwc'
          · obtain ⟨cnd, hcc, hcp, hcn⟩ := (hwf.2.2 k nd hnd).2 w' c' hwc'
            obtain ⟨cnd', hcc', hn', hp'⟩ := hagree c' cnd hcc
            exact ⟨cnd', hcc', hp'.trans hcp, hn'.trans hcn⟩
          · rw [Prod.mk.injEq] at hwc'
            obtain ⟨rfl, rfl⟩ := hwc'
            exact ⟨(⟨w', some k, []⟩ : MonikerNode), hBnew, rfl, rfl⟩
      · by_cases hknew : k = A.length
        · subst hknew
          rw [hBnew, Option.some_inj] at hk
          subst hk
          constructor
          · intro p hp
            have hp' : j = p := Option.some_inj.mp hp
            subst hp'
            exact hj
          · intro w' c' hwc
            have hwc' : (w', c') ∈ ([] : List (Nat × Nat)) := hwc
            cases hwc'
        · have hkA : k < A.length := by
            have hkB : k < B.length := by
              rcases List.getElem?_eq_some.mp hk with ⟨h', _⟩; exact h'
            omega
          rw [hBk k hkj hkA] at hk
          constructor
          · intro p hp
            exact (hwf.2.2 k ndk hk).1 p hp
          · intro w' c' hwc
            obtain ⟨cnd, hcc, hcp, hcn⟩ := (hwf.2.2 k ndk hk).2 w' c' hwc
            obtain ⟨cnd', hcc', hn', hp'⟩ := hagree c' cnd hcc
            exact ⟨cnd', hcc', hp'.trans hcp, hn'.trans hcn⟩
  refine ⟨hwfB, hagree, ?_⟩
  have hstep : sp B A.length
      = pathAux B A.length j ++ [(⟨w, some j, []⟩ : MonikerNode).name] :=
    pathAux_step hBnew rfl A.length
  rw [hstep, pathAux_agrees hwf.parentsLt hagree A.length j hj,
    pathAux_fuel hwf.parentsLt j A.length (j + 1) hj (Nat.lt_succ_self j)]
  rfl

/-- `MonikerNode::Get` preserves the arena invariant, never shrinks the
arena, keeps all existing names and parents, and the returned node's spine is
the current node's spine extended by the requested component. -/
theorem nodeGet_spec {A : List MonikerNode} {j : Nat} (w : Nat)
    (hwf : wfArenaP A) (hj : j < A.length) :
    wfArenaP (nodeGet A j w).2
    ∧ (nodeGet A j w).1 < (nodeGet A j w).2.length
    ∧ A.length ≤ (nodeGet A j w).2.length
    ∧ agreesNP A (nodeGet A j w).2
    ∧ sp (nodeGet A j w).2 (nodeGet A j w).1 = sp A j ++ [w] := by
  unfold nodeGet
  split
  case _ hnone =>
    rw [List.getElem?_eq_none_iff] at hnone
    omega
  case _ nd hnd =>
    split
    case _ c hc =>
      have hpc := List.find?_some hc
      have hcw : c.1 = w := eq_of_beq hpc
      obtain ⟨cnd, hcc, hcp, hcn⟩ :=
        (hwf.2.2 j nd hnd).2 c.1 c.2 (by
          have h1 := List.mem_of_find?_eq_some hc
          simpa using h1)
      have hclt : c.2 < A.length := by
        rcases List.getElem?_eq_some.mp hcc with ⟨h', _⟩; exact h'
      have hjc : j < c.2 := hwf.parentsLt c.2 cnd j hcc hcp
      refine ⟨hwf, hclt, le_refl _, agreesNP_refl A, ?_⟩
      show pathAux A (c.2 + 1) c.2 = pathAux A (j + 1) j ++ [w]
      rw [pathAux_step hcc hcp, hcn, hcw,
        pathAux_fuel hwf.parentsLt j c.2 (j + 1) hjc (Nat.lt_succ_self j)]
    case _ hc =>
      obtain ⟨hwfB, hagree, hsp⟩ := extendArena_facts w hwf hnd
      refine ⟨hwfB, ?_, ?_, hagree, hsp⟩
      · simp
      · simp

/-- The descent loop of `MonikerTable::Insert`: starting at a valid node, it
preserves the invariant and reaches a node whose spine is the start's spine
extended by all the requested components. -/
theorem descend_spec {A : List MonikerNode} {j : Nat} (ids : List Nat)
    (hwf : wfArenaP A) (hj : j < A.length) :
    wfArenaP (descend A j ids).2
    ∧ (descend A j ids).1 < (descend A j ids).2.length
    ∧ A.length ≤ (descend A j ids).2.length
    ∧ agreesNP A (descend A j ids).2
    ∧ sp (descend A j ids).2 (descend A j ids).1 = sp A j ++ ids := by
  induction ids generalizing A j with
  | nil => exact ⟨hwf, hj, le_refl _, agreesNP_refl A, by simp [descend]⟩
  | cons w ws ih =>
      obtain ⟨h1, h2, h3, h4, h5⟩ := nodeGet_spec w hwf hj
      obtain ⟨g1, g2, g3, g4, g5⟩ := ih h1 h2
      have hdef : descend A j (w :: ws)
          = descend (nodeGet A j w).2 (nodeGet A j w).1 ws := rfl
      rw [hdef]
      refine ⟨g1, g2, le_trans h3 g3, agreesNP_trans h4 g4, ?_⟩
      rw [g5, h5, List.append_assoc]
      rfl

theorem tokenizeComps_eq_runInserts (t : TokenTable) (cs : List String) :
    tokenizeComps t cs = ((t.runInserts cs).1.map Prod.fst, (t.runInserts cs).2) := by
  induction cs generalizing t with
  | nil => rfl
  | cons c cs ih => simp [tokenizeComps, TokenTable.runInserts, ih]

theorem tokenizeComps_tableOf (cs l : List String) :
    tokenizeComps (tableOf l) cs
      = ((outputsOf l cs).map Prod.fst, tableOf (extendSeen l cs)) := by
  rw [tokenizeComps_eq_runInserts, runInserts_tableOf]

theorem reverseLookup_tableOf {L : List String} {id : Nat} {w : String}
    (h : L[id]? = some w) :
    (tableOf L).ReverseLookup id = .ok (some w) := by
  have hlt : id < L.length := by
    rcases List.getElem?_eq_some.mp h with ⟨h', _⟩; exact h'
  unfold TokenTable.ReverseLookup tableOf
  rw [if_neg (by simp; omega)]
  simp only [h]

/-- The IDs handed out while tokenizing a component list all resolve back to
their components in the final table: the reverse vector is append-only, so
earlier IDs stay valid. -/
theorem collect_tokenized (cs l : List String) :
    collectTokens (tableOf (extendSeen l cs)) ((outputsOf l cs).map Prod.fst)
      = .ok (some cs) := by
  induction cs generalizing l with
  | nil => rfl
  | cons c cs ih =>
      by_cases h : c ∈ l
      · rw [outputsOf_cons_mem h, extendSeen_cons_mem h, List.map_cons]
        have hT : (extendSeen l cs)[idxIn c l]? = some c := by
          obtain ⟨t, ht⟩ := extendSeen_suffix cs l
          rw [ht, List.getElem?_append_left (idxIn_lt_length h), getElem?_idxIn h]
        simp only [collectTokens]
        rw [reverseLookup_tableOf hT, ih l]
      · rw [outputsOf_cons_not_mem h, extendSeen_cons_not_mem h, List.map_cons]
        have hT : (extendSeen (l ++ [c]) cs)[l.length]? = some c := by
          obtain ⟨t, ht⟩ := extendSeen_suffix cs (l ++ [c])
          rw [ht, List.getElem?_append_left (by simp),
            List.getElem?_concat_length]
        simp only [collectTokens]
        rw [reverseLookup_tableOf hT, ih (l ++ [c])]

theorem wfTokens_eq {t : TokenTable} (h : wfTokens t = true) :
    t = tableOf t.reverse := by
  unfold wfTokens at h
  rw [Bool.and_eq_true] at h
  obtain ⟨h1, h2⟩ := h
  have h1' := of_decide_eq_true h1
  have h2' : t.idCounter = t.reverse.length := eq_of_beq h2
  cases t
  simp only [tableOf] at *
  simp_all

theorem wfTokens_tableOf (l : List String) : wfTokens (tableOf l) = true := by
  unfold wfTokens tableOf
  simp

/-- `MonikerTable::Insert` when the inode is not yet in the terminal index. -/
theorem insert_of_not_found {m : MonikerTable} {i : Nat} (p : String)
    (hi : m.idToTerminal.find? (fun q => q.1 == i) = none) :
    m.Insert i p =
      (true,
        { m with
            tokens := (tokenizeComps m.tokens (pathComponents p)).2
            arena := (descend m.arena 0
              (tokenizeComps m.tokens (pathComponents p)).1).2
            idToTerminal := m.idToTerminal ++
              [(i, (descend m.arena 0
                (tokenizeComps m.tokens (pathComponents p)).1).1)] }) := by
  unfold MonikerTable.Insert
  rw [hi]

/-- `MonikerTable::Get` when the terminal node exists and every spine token
resolves. -/
theorem get_resolves {m : MonikerTable} {i : Nat} (q : Nat × Nat)
    (ss : List String)
    (hq : m.idToTerminal.find? (fun r => r.1 == i) = some q)
    (hcol : collectTokens m.tokens (pathAux m.arena m.arena.length q.2)
      = .ok (some ss)) (off : Nat) (fq : Bool) :
    m.Get i off fq = .ok (some (String.intercalate "/" ss)) := by
  unfold MonikerTable.Get
  rw [hq]
  show (match collectTokens m.tokens (pathAux m.arena m.arena.length q.2) with
      | .error e => .error e
      | .ok none => .ok none
      | .ok (some ts) => .ok (some (String.intercalate "/" ts)))
    = Except.ok (some (String.intercalate "/" ss))
  rw [hcol]

theorem find?_append_none {α : Type} {p : α → Bool} {l₁ l₂ : List α}
    (h : l₁.find? p = none) : (l₁ ++ l₂).find? p = l₂.find? p := by
  rw [List.find?_append, h, Option.none_or]

theorem find?_singleton_self (i c : Nat) :
    ([(i, c)] : List (Nat × Nat)).find? (fun r => r.1 == i) = some (i, c) := by
  simp [List.find?]

/-- Resolution after a fresh insert, stated on the explicit field values the
insert produces. -/
theorem get_after_insert {arena : List MonikerNode} {tokens : TokenTable}
    {term : List (Nat × Nat)} {rootId : Nat} {i : Nat} (cs : List String)
    (hwa : wfArenaP arena)
    (hterm : term.find? (fun q => q.1 == i) = none) :
    (MonikerTable.mk
      (descend arena 0 ((outputsOf tokens.reverse cs).map Prod.fst)).2
      (term ++ [(i, (descend arena 0
        ((outputsOf tokens.reverse cs).map Prod.fst)).1)])
      (tableOf (extendSeen tokens.reverse cs)) rootId).Get i 1 true
    = .ok (some (String.intercalate "/" cs)) := by
  obtain ⟨g1, g2, g3, g4, g5⟩ :=
    descend_spec ((outputsOf tokens.reverse cs).map Prod.fst) hwa hwa.1
  have hroot : sp arena 0 = [] := by
    rcases h0 : arena[0]? with _ | nd0
    · rw [List.getElem?_eq_none_iff] at h0
      have := hwa.1
      omega
    · exact pathAux_root h0 (hwa.2.1 nd0 h0) 0
  refine get_resolves
    (i, (descend arena 0 ((outputsOf tokens.reverse cs).map Prod.fst)).1)
    cs ?_ ?_ 1 true
  · exact (find?_append_none hterm).trans (find?_singleton_self i _)
  · dsimp only
    rw [pathAux_fuel g1.parentsLt
      (descend arena 0 ((outputsOf tokens.reverse cs).map Prod.fst)).1
      (descend arena 0 ((outputsOf tokens.reverse cs).map Prod.fst)).2.length
      ((descend arena 0 ((outputsOf tokens.reverse cs).map Prod.fst)).1 + 1)
      g2 (Nat.lt_succ_self _)]
    have g5' : pathAux
        (descend arena 0 ((outputsOf tokens.reverse cs).map Prod.fst)).2
        ((descend arena 0 ((outputsOf tokens.reverse cs).map Prod.fst)).1 + 1)
        (descend arena 0 ((outputsOf tokens.reverse cs).map Prod.fst)).1
        = (outputsOf tokens.reverse cs).map Prod.fst := by
      have hg := g5
      rw [hroot] at hg
      simpa [sp] using hg
    rw [g5']
    exact collect_tokenized cs tokens.reverse

/-- Core resolution fact: inserting a fresh inode `i` under path `p` and
resolving `i` yields exactly the non-empty components of `p` joined by the
separator. -/
theorem insert_resolve_aux {m : MonikerTable} (i : Nat) (p : String)
    (hm : m.WF) (hi : m.idToTerminal.find? (fun q => q.1 == i) = none) :
    ((m.Insert i p).2).Get i 1 true
      = .ok (some (String.intercalate "/" (pathComponents p))) := by
  obtain ⟨hwa, hwt⟩ := hm
  rw [wfArena_iff] at hwa
  have htok := wfTokens_eq hwt
  have htk : tokenizeComps m.tokens (pathComponents p)
      = ((outputsOf m.tokens.reverse (pathComponents p)).map Prod.fst,
        tableOf (extendSeen m.tokens.reverse (pathComponents p))) := by
    conv_lhs => rw [htok]
    exact tokenizeComps_tableOf (pathComponents p) m.tokens.reverse
  rw [insert_of_not_found p hi, htk]
  exact get_after_insert (pathComponents p) hwa hi

theorem insert_arena (m : MonikerTable) (i : Nat) (p : String) :
    ((m.Insert i p).2).arena
      = (descend m.arena 0 (tokenizeComps m.tokens (pathComponents p)).1).2 := by
  unfold MonikerTable.Insert
  split <;> rfl

theorem insert_tokens (m : MonikerTable) (i : Nat) (p : String) :
    ((m.Insert i p).2).tokens
      = (tokenizeComps m.tokens (pathComponents p)).2 := by
  unfold MonikerTable.Insert
  split <;> rfl

/-- `MonikerTable::Insert` preserves the well-formedness invariant, so `WF`
holds of every reachable table. -/
theorem wf_insert {m : MonikerTable} (hm : m.WF) (i : Nat) (p : String) :
    ((m.Insert i p).2).WF := by
  obtain ⟨hwa, hwt⟩ := hm
  rw [wfArena_iff] at hwa
  have htok := wfTokens_eq hwt
  constructor
  · rw [insert_arena, wfArena_iff]
    exact (descend_spec _ hwa hwa.1).1
  · rw [insert_tokens]
    conv_lhs => rw [htok, tokenizeComps_tableOf]
    exact wfTokens_tableOf _

/-- The freshly constructed table (root node plus the pre-inserted
`"<root>"` entry) is well-formed. -/
theorem wf_new (r : Nat) : (MonikerTable.new r).WF := by
  have hbase : (MonikerTable.mk [⟨0, none, []⟩] [] TokenTable.new r).WF := by
    constructor
    · show wfArena [⟨0, none, []⟩] = true
      decide
    · show wfTokens TokenTable.new = true
      decide
  exact wf_insert hbase r "<root>"

/-- C2: for every well-formed `MonikerTable`, inode `i` not already in the
terminal index, and path string `p`: after `Insert(i, p)`, resolving `i`
returns exactly the non-empty components of `p` (split on the separator,
with empty components from leading or doubled separators skipped) joined by
the separator, with no leading separator.  Well-formedness holds of every
reachable table by `wf_new` and `wf_insert`. -/
theorem moniker_insert_resolve (m : MonikerTable) (i : Nat) (p : String)
    (hm : m.WF) (hi : m.idToTerminal.find? (fun q => q.1 == i) = none) :
    ((m.Insert i p).2).Get i 1 true
      = .ok (some (String.intercalate "/" (pathComponents p))) :=
  insert_resolve_aux i p hm hi

/-- Witness for C2 at a concrete input: inserting inode 5 at "a//b/" into a
fresh table and resolving yields "a/b". -/
theorem moniker_insert_resolve_witness :
    (MonikerTable.new 0).WF
    ∧ ((MonikerTable.new 0).idToTerminal.find? (fun q => q.1 == 5) = none)
    ∧ ((((MonikerTable.new 0).Insert 5 "a//b/").2).Get 5 1 true
        = .ok (some "a/b")) := by
  refine ⟨⟨by decide, by decide⟩, by decide, ?_⟩
  have h := moniker_insert_resolve (MonikerTable.new 0) 5 "a//b/"
    ⟨by decide, by decide⟩ (by decide)
  rw [h]
  rfl

/-- C10: constructing `MonikerTable(r)` pre-inserts a terminal entry mapping
the root inode `r` to the single-component path `"<root>"`: immediately
after construction `resolve(r)` returns `"<root>"`, the terminal index has
size 1, and log emission for a swept tablet containing `r` produces the line
`"<root>"`. -/
theorem moniker_root_preinserted (r : Nat) :
    ((MonikerTable.new r).Get r 1 true = .ok (some "<root>"))
    ∧ ((MonikerTable.new r).Size = 1)
    ∧ (logLines (MonikerTable.new r) [r] = .ok ["<root>"]) := by
  have hbase : (MonikerTable.mk [⟨0, none, []⟩] [] TokenTable.new r).WF := by
    constructor
    · show wfArena [⟨0, none, []⟩] = true
      decide
    · show wfTokens TokenTable.new = true
      decide
  have hfind : (MonikerTable.mk [⟨0, none, []⟩] []
      TokenTable.new r).idToTerminal.find? (fun q => q.1 == r) = none := rfl
  have hg := insert_resolve_aux r "<root>" hbase hfind
  have heq : String.intercalate "/" (pathComponents "<root>") = "<root>" := by
    decide
  rw [heq] at hg
  have hg2 : (MonikerTable.new r).Get r 1 true = .ok (some "<root>") := hg
  refine ⟨hg2, ?_, ?_⟩
  · show ((MonikerTable.mk [⟨0, none, []⟩] [] TokenTable.new r).Insert
      r "<root>").2.Size = 1
    rw [insert_of_not_found "<root>" hfind]
    rfl
  · simp only [logLines]
    rw [hg2]

theorem toFinset_setMerge (acc s : List Nat) :
    (setMerge acc s).toFinset = acc.toFinset ∪ s.toFinset := by
  ext x
  simp only [setMerge, List.toFinset_append, Finset.mem_union,
    List.mem_toFinset, List.mem_filter, decide_eq_true_eq]
  constructor
  · rintro (h | ⟨h, _⟩)
    · exact Or.inl h
    · exact Or.inr h
  · rintro (h | h)
    · exact Or.inl h
    · by_cases hx : x ∈ acc
      · exact Or.inl hx
      · exact Or.inr ⟨h, hx⟩

theorem foldl_setMerge_toFinset (ts : List (List Nat)) (acc : List Nat) :
    (ts.foldl (fun a s => setMerge a s) acc).toFinset
      = ts.foldl (fun a s => a ∪ s.toFinset) acc.toFinset := by
  induction ts generalizing acc with
  | nil => rfl
  | cons s ts ih =>
      rw [List.foldl_cons, List.foldl_cons, ih, toFinset_setMerge]

theorem mem_foldl_union (ts : List (List Nat)) (acc : Finset Nat) (x : Nat) :
    x ∈ ts.foldl (fun a s => a ∪ s.toFinset) acc
      ↔ x ∈ acc ∨ ∃ s ∈ ts, x ∈ s := by
  induction ts generalizing acc with
  | nil => simp
  | cons s ts ih =>
      rw [List.foldl_cons, ih]
      simp only [Finset.mem_union, List.mem_toFinset, List.mem_cons]
      constructor
      · rintro ((h | h) | ⟨t, ht, hx⟩)
        · exact Or.inl h
        · exact Or.inr ⟨s, Or.inl rfl, h⟩
        · exact Or.inr ⟨t, Or.inr ht, hx⟩
      · rintro (h | ⟨t, (rfl | ht), hx⟩)
        · exact Or.inl (Or.inl h)
        · exact Or.inl (Or.inr hx)
        · exact Or.inr ⟨t, ht, hx⟩

/-- C3: one sweep into an empty aggregated tablet leaves the aggregated
tablet equal to the union `S_1 ∪ … ∪ S_k` of the per-thread tablets'
contents, and leaves every per-thread tablet holding a freshly allocated
empty set (its contents drained by the swap). -/
theorem sweep_drains_union (tablets : List (List Nat)) :
    ((Sweep tablets []).1.toFinset
      = tablets.foldl (fun acc s => acc ∪ s.toFinset) (∅ : Finset Nat))
    ∧ ((Sweep tablets []).2 = List.replicate tablets.length [])
    ∧ (∀ x : Nat, x ∈ (Sweep tablets []).1 ↔ ∃ s ∈ tablets, x ∈ s) := by
  refine ⟨?_, rfl, ?_⟩
  · have h := foldl_setMerge_toFinset tablets []
    simpa using h
  · intro x
    rw [← List.mem_toFinset,
      show (Sweep tablets []).1 = tablets.foldl (fun a s => setMerge a s) []
        from rfl,
      foldl_setMerge_toFinset tablets [], mem_foldl_union]
    simp

/-- C4 counterexample: with the tracer's enabled flag false, constructing a
frame supplied with inode 7 still inserts 7 into the current thread's
tablet (the claim says a disabled tracer's frame does not insert). -/
theorem frame_disabled_still_inserts :
    ((frameCtor ⟨[], 0, false⟩ .GetattrUseAttribution (some 7)).tablet = [7])
    ∧ ¬ ((frameCtor ⟨[], 0, false⟩ .GetattrUseAttribution
        (some 7)).tablet = []) := by
  refine ⟨rfl, ?_⟩
  intro h
  cases h

/-- C4 amended: frame construction always pushes one nesting level; when an
inode is supplied it is inserted into the current thread's tablet
unconditionally — the enabled flag is not consulted by `AttributionFrame` or
`Context::AddInode`.  The enabled flag gates only `Context::Add` (the
`do_lookup`/`do_readdir` recording path, which is a no-op when disabled)
and log writing. -/
theorem frame_ctor_behavior (st : TraceState) (tag : UseAttribution) :
    ((frameCtor st tag none).depth = st.depth + 1)
    ∧ ((frameCtor st tag none).tablet = st.tablet)
    ∧ (∀ i : Nat, (frameCtor st tag (some i)).depth = st.depth + 1)
    ∧ (∀ i : Nat,
        (frameCtor st tag (some i)).tablet = (tabletInsert st.tablet i).1)
    ∧ (∀ i : Nat,
        contextAdd ⟨st.tablet, st.depth, false⟩ i = ⟨st.tablet, st.depth, false⟩)
    ∧ (∀ i : Nat,
        contextAdd ⟨st.tablet, st.depth, true⟩ i
          = ⟨(tabletInsert st.tablet i).1, st.depth, true⟩) :=
  ⟨rfl, rfl, fun _ => rfl, fun _ => rfl, fun _ => rfl, fun _ => rfl⟩

/-- C1 counterexample: it is not the case that every registered operation
handler constructs a tracer frame tagged with its operation and records its
primary inode — `release`, `read` and `write_buf` have their frames
commented out, and `unlink`'s frame carries no inode. -/
theorem handlers_claim_false :
    (registeredHandlers.all (fun h =>
      h.framed
      && (UseAttributionStrings[h.tag.index]? == some h.op)
      && (!h.hasInodeArg || h.frameInode || h.nestedFrameInode))) = false := by
  decide

/-- C1 amended: of the 32 registered operation handlers (the enumeration has
34 tags, 33 of them with strings — `forget_one` names a helper, not an
upcall), all except `release`, `read` and `write_buf` construct a frame on
entry, tagged with the operation (the tag's string equals the operation
name); every frame-constructing handler that receives an inode records an
inode in a frame — `forget` and `forget_multi` through the nested
`forget_one` frame — except `unlink`, whose frame carries none. -/
theorem handlers_amended :
    (registeredHandlers.length = 32)
    ∧ ((registeredHandlers.filter (fun h => !h.framed)).map (fun h => h.op)
        = ["release", "read", "write_buf"])
    ∧ ((registeredHandlers.filter (fun h => h.framed)).all (fun h =>
        UseAttributionStrings[h.tag.index]? == some h.op) = true)
    ∧ ((registeredHandlers.filter (fun h =>
        h.framed && h.hasInodeArg && !h.frameInode
          && !h.nestedFrameInode)).map (fun h => h.op) = ["unlink"])
    ∧ (UseAttributionStrings.length = 33)
    ∧ (registeredHandlers.all (fun h => h.hasInodeArg) = true) := by
  refine ⟨rfl, by decide, by decide, by decide, rfl, by decide⟩

/-- C8 (code-bug witness): the buffering loop flushes only when
`buf.capacity() < size` — the capacity compared against a single path's
length, not the remaining space — so two resolved paths of 3 MiB each
accumulate to ≈6 MiB with no in-loop flush, exceeding the ≈4 MiB
reservation, where the claim requires a flush once the next line no longer
fits. -/
theorem buffer_exceeds_reservation :
    ((bufRun [3145728, 3145728]).maxLen = 6291458)
    ∧ (kLogWriterBufferSize < (bufRun [3145728, 3145728]).maxLen)
    ∧ ((bufRun [3145728, 3145728]).flushes = 0)
    ∧ (kLogWriterBufferSize < (bufRun [3145728]).len + 3145728 + 1) := by
  refine ⟨by decide, by decide, by decide, by decide⟩

/-- C7 counterexample: a successful final flush followed by an fsync that
fails on all 5 attempts does not abort the process — `Context::WriteLog`
discards `TryFsync`'s result (the claim says it aborts). -/
theorem fsync_failure_does_not_abort :
    ((writeLogTail [.ok 1] 1 (fun _ => false)).aborted = false)
    ∧ ((writeLogTail [.ok 1] 1 (fun _ => false)).fsyncOk = false)
    ∧ (TryFsync (fun _ => false) 0 5 = false) :=
  ⟨rfl, rfl, rfl⟩

/-- C7 amended: during log emission a write failing with EINTR, EAGAIN or
EWOULDBLOCK is retried; a write failing with any other error propagates out
of `TryWrite` and the surrounding `PCHECK` aborts the process; an fsync
still failing after up to 5 retries merely returns false, which
`Context::WriteLog` discards — the process does not abort. -/
theorem log_write_error_handling (rs : List (Except Errno Nat)) (n : Nat)
    (e : Errno) (f : Nat → Bool) :
    (TryWrite (.error .EINTR :: rs) (n + 1) = TryWrite rs (n + 1))
    ∧ (TryWrite (.error .EAGAIN :: rs) (n + 1) = TryWrite rs (n + 1))
    ∧ (TryWrite (.error .EWOULDBLOCK :: rs) (n + 1) = TryWrite rs (n + 1))
    ∧ (e.transient = false →
        TryWrite (.error e :: rs) (n + 1) = some (.error e))
    ∧ (e.transient = false →
        (writeLogTail (.error e :: rs) (n + 1) f).aborted = true)
    ∧ ((writeLogTail [.ok (n + 1)] (n + 1) f).aborted = false)
    ∧ ((writeLogTail [.ok (n + 1)] (n + 1) f).fsyncOk = TryFsync f 0 5) := by
  have hok : TryWrite [.ok (n + 1)] (n + 1) = some (.ok ()) := by
    simp [TryWrite, Nat.sub_self]
  refine ⟨rfl, rfl, rfl, ?_, ?_, ?_, ?_⟩
  · intro h
    simp [TryWrite, h]
  · intro h
    unfold writeLogTail
    simp [TryWrite, h]
  · unfold writeLogTail
    rw [hok]
  · unfold writeLogTail
    rw [hok]

/-- Witness for the C7 amended theorem at concrete inputs: Eio is not
transient, a write failing with Eio propagates, and the emission aborts. -/
theorem log_write_error_handling_witness :
    (Errno.transient .Eio = false)
    ∧ (TryWrite [.error .Eio] 5 = some (.error .Eio))
    ∧ ((writeLogTail [.error .Eio] 5 (fun _ => false)).aborted = true) := by
  have h := log_write_error_handling [] 4 .Eio (fun _ => false)
  exact ⟨rfl, h.2.2.2.1 rfl, h.2.2.2.2.1 rfl⟩

/-! C5 support: association-list lemmas for the registry. -/

theorem find?_of_lookupRec {st : List ((Nat × Nat) × InodeRec)}
    {id : Nat × Nat} {r : InodeRec} (h : lookupRec st id = some r) :
    st.find? (fun p => p.1 == id) = some (id, r) := by
  unfold lookupRec at h
  rcases hf : st.find? (fun p => p.1 == id) with _ | p
  · rw [hf] at h; cases h
  · rw [hf, Option.map_some', Option.some_inj] at h
    have hb := List.find?_some hf
    have h1 : p.1 = id := eq_of_beq hb
    have hp : p = (id, r) := Prod.ext h1 h
    rw [hf, hp]

theorem find?_update_eq (st : List ((Nat × Nat) × InodeRec)) (id : Nat × Nat)
    (f : InodeRec → InodeRec) :
    (st.map (fun q => if q.1 == id then (q.1, f q.2) else q)).find?
      (fun p => p.1 == id)
    = (st.find? (fun p => p.1 == id)).map (fun p => (p.1, f p.2)) := by
  induction st with
  | nil => rfl
  | cons q st ih =>
      by_cases h : (q.1 == id) = true
      · rw [List.map_cons, if_pos h]
        simp only [List.find?, h, Option.map_some']
      · rw [List.map_cons, if_neg h]
        rw [Bool.not_eq_true] at h
        simp only [List.find?, h]
        exact ih

theorem find?_erase_none (st : List ((Nat × Nat) × InodeRec)) (id : Nat × Nat) :
    (st.filter (fun q => !(q.1 == id))).find? (fun p => p.1 == id) = none := by
  apply List.find?_eq_none.mpr
  intro x hx
  have h2 := (List.mem_filter.mp hx).2
  simp only [Bool.not_eq_eq_eq_not, Bool.not_true] at h2
  simp [h2]

theorem map_fst_update (st : List ((Nat × Nat) × InodeRec)) (id : Nat × Nat)
    (f : InodeRec → InodeRec) :
    (st.map (fun q => if q.1 == id then (q.1, f q.2) else q)).map
      (fun p => p.1) = st.map (fun p => p.1) := by
  induction st with
  | nil => rfl
  | cons q st ih =>
      by_cases h : (q.1 == id) = true
      · rw [List.map_cons, if_pos h, List.map_cons, List.map_cons, ih]
      · rw [List.map_cons, if_neg h, List.map_cons, List.map_cons, ih]

theorem inv_update {st : List ((Nat × Nat) × InodeRec)} {id : Nat × Nat}
    (f : InodeRec → InodeRec) (hinv : registryInv st)
    (hf : ∀ p, p ∈ st → p.1 = id → 0 < (f p.2).nlookup ∧ 0 < (f p.2).fd) :
    registryInv (st.map (fun q => if q.1 == id then (q.1, f q.2) else q)) := by
  obtain ⟨hnd, hall⟩ := hinv
  constructor
  · rw [map_fst_update]; exact hnd
  · intro p hp
    obtain ⟨q, hq, hpq⟩ := List.mem_map.mp hp
    by_cases h : q.1 == id
    · rw [if_pos h] at hpq
      subst hpq
      exact hf q hq (eq_of_beq h)
    · rw [if_neg h] at hpq
      subst hpq
      exact hall q hq

theorem inv_erase {st : List ((Nat × Nat) × InodeRec)} {id : Nat × Nat}
    (hinv : registryInv st) :
    registryInv (st.filter (fun q => !(q.1 == id))) := by
  obtain ⟨hnd, hall⟩ := hinv
  constructor
  · exact List.Nodup.sublist ((List.filter_sublist st).map (fun p => p.1)) hnd
  · intro p hp
    exact hall p (List.mem_of_mem_filter hp)

theorem inv_append_new {st : List ((Nat × Nat) × InodeRec)} {id : Nat × Nat}
    {newFd : Int} (hinv : registryInv st)
    (hmiss : st.find? (fun p => p.1 == id) = none) (hfd : 0 < newFd) :
    registryInv (st ++ [(id, ⟨newFd, 1⟩)]) := by
  obtain ⟨hnd, hall⟩ := hinv
  have hnotin : ∀ p, p ∈ st → ¬ ((fun p => p.1 == id) p = true) :=
    List.find?_eq_none.mp hmiss
  constructor
  · rw [List.map_append]
    rw [List.nodup_append]
    refine ⟨hnd, List.nodup_singleton id, ?_⟩
    intro a ha hb
    simp only [List.map_cons, List.map_nil, List.mem_singleton] at hb
    subst hb
    obtain ⟨p, hp, hpa⟩ := List.mem_map.mp ha
    exact hnotin p hp (beq_iff_eq.mpr hpa)
  · intro p hp
    rcases List.mem_append.mp hp with h | h
    · exact hall p h
    · rw [List.mem_singleton] at h
      subst h
      exact ⟨Nat.one_pos, hfd⟩

/-- With duplicate-free keys, two registry entries sharing a key coincide. -/
theorem mem_key_unique {st : List ((Nat × Nat) × InodeRec)}
    (hnd : (st.map (fun p => p.1)).Nodup) :
    ∀ p q, p ∈ st → q ∈ st → p.1 = q.1 → p = q := by
  induction st with
  | nil => intro p q hp _ _; cases hp
  | cons x st ih =>
      intro p q hp hq hk
      rw [List.map_cons, List.nodup_cons] at hnd
      rcases List.mem_cons.mp hp with rfl | hp' <;>
        rcases List.mem_cons.mp hq with rfl | hq'
      · rfl
      · exact absurd (by rw [hk]; exact List.mem_map_of_mem (fun v => v.1) hq')
          hnd.1
      · exact absurd (by rw [← hk]; exact List.mem_map_of_mem (fun v => v.1) hp')
          hnd.1
      · exact ih hnd.2 p q hp' hq' hk

theorem forgetOne_fatal_neg {st : List ((Nat × Nat) × InodeRec)}
    {id : Nat × Nat} {r : InodeRec} {n : Nat}
    (hfind : st.find? (fun p => p.1 == id) = some (id, r))
    (hn : r.nlookup < n) :
    forgetOne st id n = .error "negative lookup count" := by
  simp only [forgetOne, hfind]
  rw [if_pos hn]

theorem forgetOne_erase {st : List ((Nat × Nat) × InodeRec)}
    {id : Nat × Nat} {r : InodeRec} {n : Nat}
    (hfind : st.find? (fun p => p.1 == id) = some (id, r))
    (hn : r.nlookup = n) :
    forgetOne st id n = .ok (st.filter (fun q => !(q.1 == id)),
      if r.fd > 0 then [r.fd] else []) := by
  simp only [forgetOne, hfind]
  rw [if_neg (by omega), if_pos hn]

theorem forgetOne_dec {st : List ((Nat × Nat) × InodeRec)}
    {id : Nat × Nat} {r : InodeRec} {n : Nat}
    (hfind : st.find? (fun p => p.1 == id) = some (id, r))
    (hlt : n < r.nlookup) :
    forgetOne st id n = .ok (st.map (fun q =>
      if q.1 == id then (q.1, { q.2 with nlookup := q.2.nlookup - n })
      else q), []) := by
  simp only [forgetOne, hfind]
  rw [if_neg (by omega), if_neg (by omega)]

theorem registryLookup_hit {st : List ((Nat × Nat) × InodeRec)}
    {id : Nat × Nat} {q : (Nat × Nat) × InodeRec} (newFd : Int)
    (hfind : st.find? (fun p => p.1 == id) = some q) :
    registryLookup st id newFd = (st.map (fun p =>
      if p.1 == id then (p.1, { p.2 with nlookup := p.2.nlookup + 1 })
      else p), [newFd]) := by
  unfold registryLookup
  rw [hfind]

theorem registryLookup_miss {st : List ((Nat × Nat) × InodeRec)}
    {id : Nat × Nat} (newFd : Int)
    (hfind : st.find? (fun p => p.1 == id) = none) :
    registryLookup st id newFd = (st ++ [(id, ⟨newFd, 1⟩)], []) := by
  unfold registryLookup
  rw [hfind]

/-- C5: for an inode record with lookup count `c = r.nlookup`:
`forget(handle, n)` with `n ≤ c` decrements the count by `n`; at zero the
record is removed and its descriptor closed exactly once by the destructor
(a later forget on the same key is fatal, so no double close); `n > c`
aborts the process; and the invariant "a record exists iff its `nlookup` is
positive (with an open descriptor)" is preserved by every lookup and
forget. -/
theorem registry_forget_lifecycle
    (st : List ((Nat × Nat) × InodeRec)) (id : Nat × Nat) (r : InodeRec)
    (n : Nat) (newFd : Int)
    (hinv : registryInv st) (hr : lookupRec st id = some r) :
    (n ≤ r.nlookup → ∃ st' closed,
        forgetOne st id n = .ok (st', closed)
        ∧ lookupRec st' id = (if r.nlookup = n then none
            else some { r with nlookup := r.nlookup - n })
        ∧ closed = (if r.nlookup = n then [r.fd] else [])
        ∧ registryInv st')
    ∧ (r.nlookup < n → forgetOne st id n = .error "negative lookup count")
    ∧ (∀ st' closed, r.nlookup = n → forgetOne st id n = .ok (st', closed) →
        ∀ n', forgetOne st' id n' = .error "unknown inode")
    ∧ (∀ st₂ : List ((Nat × Nat) × InodeRec), ∀ id₂ : Nat × Nat,
        registryInv st₂ → 0 < newFd →
        registryInv (registryLookup st₂ id₂ newFd).1) := by
  have hfind := find?_of_lookupRec hr
  have hmem : (id, r) ∈ st := List.mem_of_find?_eq_some hfind
  have hrpos := hinv.2 (id, r) hmem
  refine ⟨?_, ?_, ?_, ?_⟩
  · intro hn
    by_cases heq : r.nlookup = n
    · refine ⟨_, _, forgetOne_erase hfind heq, ?_, ?_, inv_erase hinv⟩
      · rw [if_pos heq]
        unfold lookupRec
        rw [find?_erase_none]
        rfl
      · rw [if_pos heq, if_pos hrpos.2]
    · have hlt : n < r.nlookup := by omega
      refine ⟨_, _, forgetOne_dec hfind hlt, ?_, ?_, ?_⟩
      · rw [if_neg heq]
        unfold lookupRec
        rw [find?_update_eq st id (fun v => { v with nlookup := v.nlookup - n }),
          hfind]
        rfl
      · rw [if_neg heq]
      · refine inv_update (fun v => { v with nlookup := v.nlookup - n })
          hinv ?_
        intro p hp hpid
        have hpr : p = (id, r) := mem_key_unique hinv.1 p (id, r) hp hmem hpid
        rw [hpr]
        constructor
        · show 0 < r.nlookup - n
          omega
        · show (0 : Int) < r.fd
          exact hrpos.2
  · intro hgt
    exact forgetOne_fatal_neg hfind hgt
  · intro st' closed heq hok n'
    rw [forgetOne_erase hfind heq] at hok
    have h1 : st.filter (fun q => !(q.1 == id)) = st' := by
      injection hok with h2
      exact congrArg Prod.fst h2
    rw [← h1]
    unfold forgetOne
    rw [find?_erase_none]
  · intro st₂ id₂ hinv₂ hfd
    rcases hf2 : st₂.find? (fun p => p.1 == id₂) with _ | q
    · rw [registryLookup_miss newFd hf2]
      exact inv_append_new hinv₂ hf2 hfd
    · rw [registryLookup_hit newFd hf2]
      refine inv_update (fun v => { v with nlookup := v.nlookup + 1 })
        hinv₂ ?_
      intro p hp _
      exact ⟨Nat.succ_pos _, (hinv₂.2 p hp).2⟩

/-- Witness for C5 at a concrete input: a registry holding one record with
`nlookup = 2` and descriptor 3; `forget` of 2 removes the record, closes
descriptor 3, and preserves the invariant. -/
theorem registry_forget_lifecycle_witness :
    ∃ st' closed,
      forgetOne [((7, 1), (⟨3, 2⟩ : InodeRec))] (7, 1) 2 = .ok (st', closed)
      ∧ lookupRec st' (7, 1) = none
      ∧ closed = [3]
      ∧ registryInv st' := by
  obtain ⟨st', closed, h1, h2, h3, h4⟩ :=
    (registry_forget_lifecycle [((7, 1), ⟨3, 2⟩)] (7, 1) ⟨3, 2⟩ 2 5
      ⟨by decide, by decide⟩ rfl).1 (by decide)
  refine ⟨st', closed, h1, ?_, ?_, h4⟩
  · simpa using h2
  · simpa using h3

end Spyfs
